import Mathlib

/-
Shallow embedding of resize.py: shape classification and shape selection for
normalising wallpaper images to a target aspect ratio.

Conventions:
  * a shape is a pair (height, width) of naturals (image.shape[:2] order);
  * a ratio pair rat = (rw, rh) holds the width component first, as in the
    Python code (ratio[0] = rw, ratio[1] = rh);
  * Python float arithmetic on integer inputs is modelled by exact rational
    arithmetic in the field of rationals; int(...) applied to a non-negative
    quotient truncates toward zero, which is the floor, hence natural-number
    division;
  * numpy argmin returns the first index attaining the minimum;
  * Python list indexing with a possibly negative index is modelled by pyGet.
-/

namespace WallpaperResize

/-- Embeds is_good_ratio: width == int(height * ratio[0] / ratio[1]).
The quotient of naturals is non-negative, so truncation is floor, i.e.
natural division. -/
def is_good_rat (width height : ℕ) (rat : ℕ × ℕ) : Bool :=
  width == height * rat.1 / rat.2

/-- Embeds is_resizable: abs(width / height - ratio[0] / ratio[1]) <= margin,
with the real-valued arithmetic modelled exactly in the rationals. -/
def is_resizable (width height : ℕ) (margin : ℚ) (rat : ℕ × ℕ) : Bool :=
  decide (|(width : ℚ) / (height : ℚ) - (rat.1 : ℚ) / (rat.2 : ℚ)| ≤ margin)

/-- Squared Euclidean distance between two (height, width) points, as in
np.sum(np.square(valid_shapes - bad_shape), axis=1). -/
def sq_dist (a b : ℕ × ℕ) : ℤ :=
  ((a.1 : ℤ) - (b.1 : ℤ)) ^ 2 + ((a.2 : ℤ) - (b.2 : ℤ)) ^ 2

/-- Embeds np.argmin on a list of integers: the index of the first occurrence
of the minimal element (0 on the empty list, on which numpy raises). -/
def npArgmin : List ℤ → ℕ
  | [] => 0
  | [_] => 0
  | x :: y :: ys =>
    if x ≤ (y :: ys).getD (npArgmin (y :: ys)) 0 then 0 else npArgmin (y :: ys) + 1

/-- Embeds get_closest_shape: if the (width, height) already has a good ratio,
return the image shape (height, width) itself; otherwise return the valid
shape at the argmin of the squared distances. -/
def get_closest_shape (width height : ℕ) (valid_shapes : List (ℕ × ℕ))
    (rat : ℕ × ℕ) : ℕ × ℕ :=
  if is_good_rat width height rat then (height, width)
  else
    valid_shapes.getD
      (npArgmin (valid_shapes.map (fun s => sq_dist s (height, width)))) (0, 0)

/-- Embeds compute_all_valid_shapes.  numpy broadcasting divides each
(height, width) row elementwise by the ratio array (ratio[0], ratio[1]) =
(rw, rh), so the height is divided by rw and the width by rh; np.max of the
resulting (non-negative) quotients is floored by astype(int); the outer
product of arange(1, max_ratio + 1) with the ratio gives rows
(k * rw, k * rh), and the final [:, ::-1] reverses each row to
(k * rh, k * rw).  An empty shape list makes numpy raise; the claims only
concern non-empty collections. -/
def compute_all_valid_shapes (shapes : List (ℕ × ℕ)) (rat : ℕ × ℕ) :
    List (ℕ × ℕ) :=
  let q : ℚ :=
    (shapes.map
      (fun s => max ((s.1 : ℚ) / (rat.1 : ℚ)) ((s.2 : ℚ) / (rat.2 : ℚ)))).foldl
      max 0
  (List.range (⌊q⌋).toNat).map (fun i => ((i + 1) * rat.2, (i + 1) * rat.1))

/-- The same maximal multiplier computed with natural division: the largest k
reachable from some observed shape by the code's (swapped) division. -/
def max_mult (shapes : List (ℕ × ℕ)) (rat : ℕ × ℕ) : ℕ :=
  (shapes.map (fun s => max (s.1 / rat.1) (s.2 / rat.2))).foldl max 0

/-- Modelled from the claim wording for comparison: the valid shapes with
max_ratio taken as the floor of the maximum over shapes and both dimensions
of the dimension divided by its CORRESPONDING ratio component (height by rh,
width by rw). -/
def claimed_valid_shapes (shapes : List (ℕ × ℕ)) (rat : ℕ × ℕ) :
    List (ℕ × ℕ) :=
  let m : ℕ := (shapes.map (fun s => max (s.1 / rat.2) (s.2 / rat.1))).foldl max 0
  (List.range m).map (fun i => ((i + 1) * rat.2, (i + 1) * rat.1))

/-- Final value of the loop variable i in
`for i, v in enumerate(l): if p v: break`: the index of the first element
satisfying p, and the last index when no element satisfies p (0 when the
list is empty, where Python would leave i unbound). -/
def loop_index (p : α → Bool) : List α → ℕ
  | [] => 0
  | [_] => 0
  | x :: y :: ys => if p x then 0 else loop_index p (y :: ys) + 1

/-- Python list indexing with a possibly negative index: l[i] is l[len + i]
for negative i.  Out-of-range accesses (IndexError in Python) return a
default; the claims stay in range. -/
def pyGet (l : List (ℕ × ℕ)) (i : ℤ) : ℕ × ℕ :=
  if i < 0 then l.getD (l.length - (-i).toNat) (0, 0) else l.getD i.toNat (0, 0)

/-- Embeds get_biggest_shape_contained_in_image: scan for the first valid
shape exceeding the image in some dimension (np.any(shape < valid_shape)),
then return valid_shapes[i - 1] with Python indexing. -/
def get_biggest_shape_contained_in_image (shape : ℕ × ℕ)
    (valid_shapes : List (ℕ × ℕ)) : ℕ × ℕ :=
  pyGet valid_shapes
    ((loop_index (fun v => shape.1 < v.1 || shape.2 < v.2) valid_shapes : ℤ) - 1)

/-- Embeds margin = old_shape - new_shape in crop_image (numpy signed
integer subtraction, elementwise). -/
def crop_margin (old new : ℕ × ℕ) : ℤ × ℤ :=
  ((old.1 : ℤ) - (new.1 : ℤ), (old.2 : ℤ) - (new.2 : ℤ))

/-- Embeds up_left_margin = margin // 2 (numpy floor division). -/
def crop_up_left (old new : ℕ × ℕ) : ℤ × ℤ :=
  ((crop_margin old new).1.fdiv 2, (crop_margin old new).2.fdiv 2)

/-- Embeds down_right_margin = margin - up_left_margin. -/
def crop_down_right (old new : ℕ × ℕ) : ℤ × ℤ :=
  ((crop_margin old new).1 - (crop_up_left old new).1,
   (crop_margin old new).2 - (crop_up_left old new).2)

/-- Python slice endpoint adjustment for a length-n axis. -/
def pySliceIdx (n i : ℤ) : ℤ :=
  if i < 0 then max 0 (n + i) else min i n

/-- Length of the Python slice l[a:b] on a length-n axis. -/
def pySliceLen (n a b : ℤ) : ℤ :=
  max 0 (pySliceIdx n b - pySliceIdx n a)

/-- Shape of the cropped image produced by crop_image: axis 0 is sliced from
left_margin to width - right_margin and axis 1 from up_margin to
height - down_margin, where the code's variable names width, height are
bound to old_shape[0], old_shape[1] respectively. -/
def cropped_shape (old new : ℕ × ℕ) : ℤ × ℤ :=
  (pySliceLen (old.1 : ℤ) (crop_up_left old new).1
      ((old.1 : ℤ) - (crop_down_right old new).1),
   pySliceLen (old.2 : ℤ) (crop_up_left old new).2
      ((old.2 : ℤ) - (crop_down_right old new).2))

/-- The three classification outcomes of the per-image dispatch in main. -/
inductive Outcome
  | Conforming
  | Resizable
  | CropRequired
deriving DecidableEq

/-- The per-image classification performed by the if/elif/else in main. -/
def classify (width height : ℕ) (rat : ℕ × ℕ) (margin : ℚ) : Outcome :=
  if is_good_rat width height rat then .Conforming
  else if is_resizable width height margin rat then .Resizable
  else .CropRequired

/-- What main does to one file: skip (no write), or overwrite it with a
resized or cropped image aimed at the given target shape. -/
inductive Action
  | skip
  | resize (target : ℕ × ℕ)
  | crop (target : ℕ × ℕ)
deriving DecidableEq

/-- The action main dispatches for one image of the given (height, width)
shape: skip when the ratio is good, resize to the closest valid shape when
resizable, otherwise crop to the biggest contained shape. -/
def process_image (shape : ℕ × ℕ) (valid_shapes : List (ℕ × ℕ))
    (rat : ℕ × ℕ) (margin : ℚ) : Action :=
  if is_good_rat shape.2 shape.1 rat then .skip
  else if is_resizable shape.2 shape.1 margin rat then
    .resize (get_closest_shape shape.2 shape.1 valid_shapes rat)
  else
    .crop (get_biggest_shape_contained_in_image shape valid_shapes)

/-- The shape of the file after an action: resize_image calls
cv2.resize(image, closest_shape[::-1]), producing the target (height, width);
crop_image slices the image as modelled by cropped_shape. -/
def apply_action (shape : ℕ × ℕ) (a : Action) : ℕ × ℕ :=
  match a with
  | .skip => shape
  | .resize t => t
  | .crop t => ((cropped_shape shape t).1.toNat, (cropped_shape shape t).2.toNat)

/-- One run of main over a directory whose images have the given shapes:
the shared valid-shape list is computed once from all shapes, then each
image is dispatched independently. -/
def main_actions (shapes : List (ℕ × ℕ)) (rat : ℕ × ℕ) (margin : ℚ) :
    List Action :=
  shapes.map
    (fun s => process_image s (compute_all_valid_shapes shapes rat) rat margin)

/-- The directory's image shapes after one run of main. -/
def shapes_after (shapes : List (ℕ × ℕ)) (rat : ℕ × ℕ) (margin : ℚ) :
    List (ℕ × ℕ) :=
  shapes.map
    (fun s =>
      apply_action s
        (process_image s (compute_all_valid_shapes shapes rat) rat margin))

/-! Helper lemmas about foldl max over naturals. -/

theorem foldl_max_init_le (l : List ℕ) : ∀ c : ℕ, c ≤ l.foldl max c := by
  induction l with
  | nil => intro c; exact le_refl c
  | cons x xs ih =>
    intro c
    exact le_trans (le_max_left c x) (ih (max c x))

theorem le_foldl_max_of_mem {x : ℕ} :
    ∀ (l : List ℕ), x ∈ l → ∀ c : ℕ, x ≤ l.foldl max c := by
  intro l
  induction l with
  | nil => intro h; exact absurd h (List.not_mem_nil x)
  | cons y ys ih =>
    intro hmem c
    rcases List.mem_cons.mp hmem with h | h
    · subst h
      exact le_trans (le_max_right c x) (foldl_max_init_le ys (max c x))
    · exact ih h (max c y)

theorem foldl_max_cases (l : List ℕ) :
    ∀ c : ℕ, l.foldl max c = c ∨ ∃ x ∈ l, l.foldl max c = x := by
  induction l with
  | nil => intro c; exact Or.inl rfl
  | cons y ys ih =>
    intro c
    rcases ih (max c y) with h | ⟨x, hx, hfx⟩
    · rcases max_choice c y with hm | hm
      · exact Or.inl (by rw [List.foldl_cons, h, hm])
      · exact Or.inr ⟨y, List.mem_cons_self y ys, by rw [List.foldl_cons, h, hm]⟩
    · exact Or.inr ⟨x, List.mem_cons_of_mem y hx, by rw [List.foldl_cons, hfx]⟩

/-! Helper lemmas bridging the rational floor computation of
compute_all_valid_shapes with natural division. -/

theorem natFloor_max (a b : ℚ) : ⌊max a b⌋₊ = max ⌊a⌋₊ ⌊b⌋₊ := by
  rcases le_total a b with h | h
  · rw [max_eq_right h, max_eq_right (Nat.floor_le_floor h)]
  · rw [max_eq_left h, max_eq_left (Nat.floor_le_floor h)]

theorem natFloor_foldl_max (l : List ℚ) :
    ∀ a : ℚ, ⌊l.foldl max a⌋₊ = (l.map (fun q => ⌊q⌋₊)).foldl max ⌊a⌋₊ := by
  induction l with
  | nil => intro a; rfl
  | cons q l ih =>
    intro a
    rw [List.foldl_cons, List.map_cons, List.foldl_cons, ih, natFloor_max]

theorem compute_eq (shapes : List (ℕ × ℕ)) (rat : ℕ × ℕ) :
    compute_all_valid_shapes shapes rat =
      (List.range (max_mult shapes rat)).map
        (fun i => ((i + 1) * rat.2, (i + 1) * rat.1)) := by
  have hfloor :
      (⌊(shapes.map
          (fun s => max ((s.1 : ℚ) / (rat.1 : ℚ)) ((s.2 : ℚ) / (rat.2 : ℚ)))).foldl
          max 0⌋).toNat = max_mult shapes rat := by
    rw [Int.floor_toNat, natFloor_foldl_max, List.map_map, max_mult, Nat.floor_zero]
    congr 1
    apply List.map_congr_left
    intro s _
    simp only [Function.comp_apply]
    rw [natFloor_max, Nat.floor_div_nat, Nat.floor_div_nat, Nat.floor_natCast,
      Nat.floor_natCast]
  simp only [compute_all_valid_shapes]
  rw [hfloor]

/-! Helper lemmas about npArgmin: it returns an in-range index, the value
there is minimal, and every earlier value is strictly larger (numpy argmin
returns the first occurrence of the minimum). -/

theorem npArgmin_cons_cons (x y : ℤ) (ys : List ℤ) :
    npArgmin (x :: y :: ys) =
      if x ≤ (y :: ys).getD (npArgmin (y :: ys)) 0 then 0
      else npArgmin (y :: ys) + 1 := rfl

theorem npArgmin_lt_length : ∀ (l : List ℤ), l ≠ [] → npArgmin l < l.length := by
  intro l
  induction l with
  | nil => intro h; exact absurd rfl h
  | cons x xs ih =>
    intro _
    cases xs with
    | nil => simp [npArgmin]
    | cons y ys =>
      rw [npArgmin_cons_cons]
      by_cases h : x ≤ (y :: ys).getD (npArgmin (y :: ys)) 0
      · rw [if_pos h]
        simp
      · rw [if_neg h]
        have hlt := ih (by simp)
        simp only [List.length_cons] at hlt ⊢
        omega

theorem npArgmin_getD_le :
    ∀ (l : List ℤ) (i : ℕ), i < l.length →
      l.getD (npArgmin l) 0 ≤ l.getD i 0 := by
  intro l
  induction l with
  | nil => intro i hi; simp at hi
  | cons x xs ih =>
    intro i hi
    cases xs with
    | nil =>
      cases i with
      | zero => exact le_refl _
      | succ k =>
        simp only [List.length_cons, List.length_nil] at hi
        omega
    | cons y ys =>
      rw [npArgmin_cons_cons]
      by_cases h : x ≤ (y :: ys).getD (npArgmin (y :: ys)) 0
      · rw [if_pos h, List.getD_cons_zero]
        cases i with
        | zero => exact le_refl _
        | succ k =>
          rw [List.getD_cons_succ]
          exact le_trans h (ih k (by simpa using hi))
      · rw [if_neg h, List.getD_cons_succ]
        cases i with
        | zero =>
          rw [List.getD_cons_zero]
          exact le_of_lt (lt_of_not_ge h)
        | succ k =>
          rw [List.getD_cons_succ]
          exact ih k (by simpa using hi)

theorem npArgmin_first :
    ∀ (l : List ℤ) (j : ℕ), j < npArgmin l →
      l.getD (npArgmin l) 0 < l.getD j 0 := by
  intro l
  induction l with
  | nil => intro j hj; simp [npArgmin] at hj
  | cons x xs ih =>
    intro j hj
    cases xs with
    | nil => simp [npArgmin] at hj
    | cons y ys =>
      rw [npArgmin_cons_cons] at hj ⊢
      by_cases h : x ≤ (y :: ys).getD (npArgmin (y :: ys)) 0
      · rw [if_pos h] at hj
        exact absurd hj (Nat.not_lt_zero j)
      · rw [if_neg h] at hj ⊢
        cases j with
        | zero =>
          rw [List.getD_cons_succ, List.getD_cons_zero]
          exact lt_of_not_ge h
        | succ k =>
          rw [List.getD_cons_succ, List.getD_cons_succ]
          exact ih k (by omega)

/-! Helper lemmas about get_closest_shape in its non-conforming branch. -/

theorem gcs_eq_getD (width height : ℕ) (vs : List (ℕ × ℕ)) (rat : ℕ × ℕ)
    (hbad : is_good_rat width height rat = false) :
    get_closest_shape width height vs rat =
      vs.getD (npArgmin (vs.map (fun s => sq_dist s (height, width)))) (0, 0) := by
  rw [get_closest_shape, hbad]
  rfl

theorem map_getD_sq_dist (vs : List (ℕ × ℕ)) (P : ℕ × ℕ) (i : ℕ)
    (hi : i < vs.length) :
    (vs.map (fun s => sq_dist s P)).getD i 0 = sq_dist (vs.getD i (0, 0)) P := by
  have hi2 : i < (vs.map (fun s => sq_dist s P)).length := by
    rw [List.length_map]; exact hi
  rw [List.getD_eq_getElem _ _ hi2, List.getD_eq_getElem _ _ hi, List.getElem_map]

theorem gcs_argmin_lt (width height : ℕ) (vs : List (ℕ × ℕ)) (hne : vs ≠ []) :
    npArgmin (vs.map (fun s => sq_dist s (height, width))) < vs.length := by
  have h1 : vs.map (fun s => sq_dist s (height, width)) ≠ [] := by
    simpa using hne
  have := npArgmin_lt_length _ h1
  rwa [List.length_map] at this

theorem gcs_mem (width height : ℕ) (vs : List (ℕ × ℕ)) (rat : ℕ × ℕ)
    (hbad : is_good_rat width height rat = false) (hne : vs ≠ []) :
    get_closest_shape width height vs rat ∈ vs := by
  rw [gcs_eq_getD width height vs rat hbad]
  have hlt := gcs_argmin_lt width height vs hne
  rw [List.getD_eq_getElem _ _ hlt]
  exact List.getElem_mem hlt

theorem gcs_min (width height : ℕ) (vs : List (ℕ × ℕ)) (rat : ℕ × ℕ)
    (hbad : is_good_rat width height rat = false) (hne : vs ≠ []) :
    ∀ s ∈ vs,
      sq_dist (get_closest_shape width height vs rat) (height, width) ≤
        sq_dist s (height, width) := by
  intro s hs
  rcases List.mem_iff_getElem.mp hs with ⟨i, hi, hgi⟩
  have hlt := gcs_argmin_lt width height vs hne
  rw [gcs_eq_getD width height vs rat hbad,
    ← map_getD_sq_dist vs (height, width) _ hlt]
  have hle := npArgmin_getD_le (vs.map (fun s => sq_dist s (height, width))) i
    (by rw [List.length_map]; exact hi)
  rw [map_getD_sq_dist vs (height, width) i hi, List.getD_eq_getElem _ _ hi,
    hgi] at hle
  exact hle

theorem gcs_first (width height : ℕ) (vs : List (ℕ × ℕ)) (rat : ℕ × ℕ)
    (hbad : is_good_rat width height rat = false) (hne : vs ≠ []) :
    ∃ i, i < vs.length ∧
      vs.getD i (0, 0) = get_closest_shape width height vs rat ∧
      ∀ j, j < i →
        sq_dist (get_closest_shape width height vs rat) (height, width) <
          sq_dist (vs.getD j (0, 0)) (height, width) := by
  have hlt := gcs_argmin_lt width height vs hne
  refine ⟨npArgmin (vs.map (fun s => sq_dist s (height, width))), hlt,
    (gcs_eq_getD width height vs rat hbad).symm, ?_⟩
  intro j hj
  have hfirst := npArgmin_first (vs.map (fun s => sq_dist s (height, width))) j hj
  have hjlt : j < vs.length := lt_trans hj hlt
  rw [map_getD_sq_dist vs (height, width) _ hlt,
    map_getD_sq_dist vs (height, width) j hjlt] at hfirst
  rw [gcs_eq_getD width height vs rat hbad]
  exact hfirst

/-! Helper lemmas about the loop variable of the break-scan in
get_biggest_shape_contained_in_image. -/

theorem loop_index_cons_cons (p : α → Bool) (x y : α) (ys : List α) :
    loop_index p (x :: y :: ys) =
      if p x then 0 else loop_index p (y :: ys) + 1 := rfl

theorem loop_index_lt_length (p : α → Bool) :
    ∀ (l : List α), l ≠ [] → loop_index p l < l.length := by
  intro l
  induction l with
  | nil => intro h; exact absurd rfl h
  | cons x xs ih =>
    intro _
    cases xs with
    | nil => simp [loop_index]
    | cons y ys =>
      rw [loop_index_cons_cons]
      by_cases h : p x
      · rw [if_pos h]
        simp
      · rw [if_neg h]
        have hlt := ih (by simp)
        simp only [List.length_cons] at hlt ⊢
        omega

theorem loop_index_before (p : α → Bool) (d : α) :
    ∀ (l : List α) (j : ℕ), j < loop_index p l → p (l.getD j d) = false := by
  intro l
  induction l with
  | nil => intro j hj; simp [loop_index] at hj
  | cons x xs ih =>
    intro j hj
    cases xs with
    | nil => simp [loop_index] at hj
    | cons y ys =>
      rw [loop_index_cons_cons] at hj
      by_cases h : p x
      · rw [if_pos h] at hj
        exact absurd hj (Nat.not_lt_zero j)
      · rw [if_neg h] at hj
        cases j with
        | zero =>
          rw [List.getD_cons_zero]
          exact Bool.eq_false_iff.mpr h
        | succ k =>
          rw [List.getD_cons_succ]
          exact ih k (by omega)

theorem loop_index_hit (p : α → Bool) (d : α) :
    ∀ (l : List α), (∃ v ∈ l, p v = true) →
      p (l.getD (loop_index p l) d) = true := by
  intro l
  induction l with
  | nil => intro h; rcases h with ⟨v, hv, _⟩; exact absurd hv (List.not_mem_nil v)
  | cons x xs ih =>
    intro hex
    cases xs with
    | nil =>
      rcases hex with ⟨v, hv, hpv⟩
      rcases List.mem_cons.mp hv with h | h
      · subst h; simpa [loop_index] using hpv
      · exact absurd h (List.not_mem_nil v)
    | cons y ys =>
      rw [loop_index_cons_cons]
      by_cases h : p x
      · rw [if_pos h, List.getD_cons_zero]; exact h
      · rw [if_neg h, List.getD_cons_succ]
        apply ih
        rcases hex with ⟨v, hv, hpv⟩
        rcases List.mem_cons.mp hv with heq | hmem
        · subst heq; exact absurd hpv (Bool.eq_false_iff.mp (Bool.not_eq_true _ ▸ by simpa using h))
        · exact ⟨v, hmem, hpv⟩

theorem loop_index_nohit (p : α → Bool) :
    ∀ (l : List α), (∀ v ∈ l, p v = false) → l ≠ [] →
      loop_index p l = l.length - 1 := by
  intro l
  induction l with
  | nil => intro _ h; exact absurd rfl h
  | cons x xs ih =>
    intro hall _
    cases xs with
    | nil => simp [loop_index]
    | cons y ys =>
      rw [loop_index_cons_cons]
      have hx : p x = false := hall x (List.mem_cons_self x _)
      rw [if_neg (by simp [hx])]
      have := ih (fun v hv => hall v (List.mem_cons_of_mem x hv)) (by simp)
      simp only [List.length_cons] at this ⊢
      omega

/-! Helper lemmas about get_biggest_shape_contained_in_image. -/

theorem biggest_eq_getD (shape : ℕ × ℕ) (vs : List (ℕ × ℕ))
    (h1le : 1 ≤ loop_index (fun v => shape.1 < v.1 || shape.2 < v.2) vs) :
    get_biggest_shape_contained_in_image shape vs =
      vs.getD (loop_index (fun v => shape.1 < v.1 || shape.2 < v.2) vs - 1)
        (0, 0) := by
  unfold get_biggest_shape_contained_in_image pyGet
  rw [if_neg (by omega)]
  congr 1
  omega

/-- Claim C2, amended: for every image shape and non-empty valid-shape
sequence that is elementwise nondecreasing, whose first shape is contained
in the image, and in which SOME shape exceeds the image in at least one
dimension, get_biggest_shape_contained_in_image returns a shape contained
in the image, and it is the maximal contained one.  (As stated the claim is
false: when every shape is contained the scan never breaks and the
second-to-last shape is returned, and when the first shape already exceeds
the image the index wraps to the last shape.) -/
theorem c2_largest_contained_amended (shape : ℕ × ℕ) (vs : List (ℕ × ℕ))
    (hpw : vs.Pairwise (fun a b => a.1 ≤ b.1 ∧ a.2 ≤ b.2))
    (hne : vs ≠ [])
    (hfirst : (vs.getD 0 (0, 0)).1 ≤ shape.1 ∧ (vs.getD 0 (0, 0)).2 ≤ shape.2)
    (hex : ∃ v ∈ vs, shape.1 < v.1 ∨ shape.2 < v.2) :
    get_biggest_shape_contained_in_image shape vs ∈ vs ∧
    (get_biggest_shape_contained_in_image shape vs).1 ≤ shape.1 ∧
    (get_biggest_shape_contained_in_image shape vs).2 ≤ shape.2 ∧
    ∀ v ∈ vs, v.1 ≤ shape.1 → v.2 ≤ shape.2 →
      v.1 ≤ (get_biggest_shape_contained_in_image shape vs).1 ∧
      v.2 ≤ (get_biggest_shape_contained_in_image shape vs).2 := by
  set p : ℕ × ℕ → Bool := fun v => shape.1 < v.1 || shape.2 < v.2 with hp
  set i : ℕ := loop_index p vs with hidef
  have hexB : ∃ v ∈ vs, p v = true := by
    obtain ⟨v, hv, hor⟩ := hex
    exact ⟨v, hv, by simp [hp]; exact hor⟩
  have hilt : i < vs.length := loop_index_lt_length p vs hne
  have hhit : p (vs.getD i (0, 0)) = true := loop_index_hit p (0, 0) vs hexB
  have hfirstB : p (vs.getD 0 (0, 0)) = false := by
    simp only [hp, Bool.or_eq_false_iff, decide_eq_false_iff_not, not_lt]
    exact hfirst
  have h1le : 1 ≤ i := by
    by_contra hcon
    have h0 : i = 0 := by omega
    rw [h0] at hhit
    rw [hfirstB] at hhit
    simp at hhit
  have heq : get_biggest_shape_contained_in_image shape vs =
      vs.getD (i - 1) (0, 0) := biggest_eq_getD shape vs h1le
  have him1 : i - 1 < vs.length := by omega
  have hcontB : p (vs.getD (i - 1) (0, 0)) = false :=
    loop_index_before p (0, 0) vs (i - 1) (by omega)
  have hcont : (vs.getD (i - 1) (0, 0)).1 ≤ shape.1 ∧
      (vs.getD (i - 1) (0, 0)).2 ≤ shape.2 := by
    simpa [hp, not_lt] using hcontB
  have hpw2 := List.pairwise_iff_getElem.mp hpw
  refine ⟨?_, ?_, ?_, ?_⟩
  · rw [heq, List.getD_eq_getElem _ _ him1]
    exact List.getElem_mem him1
  · rw [heq]; exact hcont.1
  · rw [heq]; exact hcont.2
  · intro v hv h1 h2
    rw [heq]
    obtain ⟨m, hm, hvm⟩ := List.mem_iff_getElem.mp hv
    have hhitOr : shape.1 < (vs.getD i (0, 0)).1 ∨
        shape.2 < (vs.getD i (0, 0)).2 := by
      have h := hhit
      simp only [hp, Bool.or_eq_true, decide_eq_true_eq] at h
      exact h
    rw [List.getD_eq_getElem _ _ hilt] at hhitOr
    rcases Nat.lt_or_ge m i with hmi | hmi
    · rcases Nat.lt_or_ge m (i - 1) with hm1 | hm1
      · have hle := hpw2 m (i - 1) hm him1 hm1
        rw [List.getD_eq_getElem _ _ him1, ← hvm]
        exact hle
      · have hmeq : m = i - 1 := by omega
        subst hmeq
        rw [List.getD_eq_getElem _ _ him1, ← hvm]
        exact ⟨le_refl _, le_refl _⟩
    · exfalso
      rcases Nat.lt_or_ge i m with him | him
      · have hle := hpw2 i m hilt hm him
        rw [hvm] at hle
        rcases hhitOr with hlt1 | hlt2
        · omega
        · omega
      · have hmeq : m = i := by omega
        subst hmeq
        rw [hvm] at hhitOr
        rcases hhitOr with hlt1 | hlt2
        · omega
        · omega

/-! Claim C1. -/

/-- Claim C1, counterexample: compute_all_valid_shapes does NOT use the
corresponding ratio components.  For the single observed shape (1, 2)
(height 1, width 2) and ratio (rw, rh) = (2, 1), the claimed max_ratio is
max(1/1, 2/2) = 1, giving exactly [(1, 2)], but the code divides the height
by rw and the width by rh, giving max(1/2, 2/1) = 2 and hence
[(1, 2), (2, 4)]. -/
theorem c1_counterexample :
    compute_all_valid_shapes [(1, 2)] (2, 1) = [(1, 2), (2, 4)] ∧
    claimed_valid_shapes [(1, 2)] (2, 1) = [(1, 2)] ∧
    compute_all_valid_shapes [(1, 2)] (2, 1) ≠
      claimed_valid_shapes [(1, 2)] (2, 1) := by
  rw [compute_eq]
  refine ⟨by decide, by decide, by decide⟩

/-- Claim C1, amended: for every non-empty shape collection and positive
ratio (rw, rh), compute_all_valid_shapes returns the shapes (k·rh, k·rw) for
k = 1..max_ratio, where max_ratio is the floor of the maximum over all
observed shapes of max(height / rw, width / rh) — each dimension is divided
by the OPPOSITE ratio component — equivalently (k·rh, k·rw) is produced
exactly for those k ≥ 1 with k·rw ≤ some observed height or k·rh ≤ some
observed width; and if max_ratio < 1 the result is empty. -/
theorem c1_valid_shapes_swapped (shapes : List (ℕ × ℕ)) (rat : ℕ × ℕ)
    (_hne : shapes ≠ []) (hrw : 0 < rat.1) (hrh : 0 < rat.2) :
    compute_all_valid_shapes shapes rat =
      (List.range (max_mult shapes rat)).map
        (fun i => ((i + 1) * rat.2, (i + 1) * rat.1)) ∧
    (∀ k : ℕ, 1 ≤ k →
      (((k * rat.2, k * rat.1) : ℕ × ℕ) ∈ compute_all_valid_shapes shapes rat ↔
        ∃ s ∈ shapes, k * rat.1 ≤ s.1 ∨ k * rat.2 ≤ s.2)) ∧
    (max_mult shapes rat = 0 → compute_all_valid_shapes shapes rat = []) := by
  refine ⟨compute_eq shapes rat, ?_, ?_⟩
  · intro k hk
    rw [compute_eq]
    constructor
    · intro hmem
      rw [List.mem_map] at hmem
      obtain ⟨i, hi, heq⟩ := hmem
      rw [List.mem_range] at hi
      have h2 := congrArg Prod.snd heq
      simp only at h2
      have hk_eq : i + 1 = k := Nat.eq_of_mul_eq_mul_right hrw h2
      have hkM : k ≤ max_mult shapes rat := by omega
      rcases foldl_max_cases
          (shapes.map (fun s => max (s.1 / rat.1) (s.2 / rat.2))) 0 with hc | hc
      · rw [max_mult, hc] at hkM
        omega
      · obtain ⟨x, hx, hfx⟩ := hc
        rw [List.mem_map] at hx
        obtain ⟨s, hs, hsx⟩ := hx
        rw [max_mult, hfx, ← hsx] at hkM
        refine ⟨s, hs, ?_⟩
        rcases le_max_iff.mp hkM with h | h
        · exact Or.inl ((Nat.le_div_iff_mul_le hrw).mp h)
        · exact Or.inr ((Nat.le_div_iff_mul_le hrh).mp h)
    · rintro ⟨s, hs, hor⟩
      have hk_le : k ≤ max (s.1 / rat.1) (s.2 / rat.2) := by
        rcases hor with h | h
        · exact le_max_of_le_left ((Nat.le_div_iff_mul_le hrw).mpr h)
        · exact le_max_of_le_right ((Nat.le_div_iff_mul_le hrh).mpr h)
      have hkM : k ≤ max_mult shapes rat := by
        rw [max_mult]
        exact le_trans hk_le
          (le_foldl_max_of_mem _
            (List.mem_map_of_mem
              (fun s : ℕ × ℕ => max (s.1 / rat.1) (s.2 / rat.2)) hs) 0)
      rw [List.mem_map]
      exact ⟨k - 1, List.mem_range.mpr (by omega),
        by rw [show k - 1 + 1 = k from by omega]⟩
  · intro h0
    rw [compute_eq, h0]
    rfl

/-- Claim C1, witness of the amended theorem: instantiated at the single
shape (1080, 1920) with ratio (16, 9): the code produces shapes for
k = 1..max_mult, where max_mult [(1080, 1920)] (16, 9)
= max(1080/16, 1920/9) = 213, not 120. -/
theorem c1_valid_shapes_swapped_witness :
    compute_all_valid_shapes [(1080, 1920)] (16, 9) =
      (List.range (max_mult [(1080, 1920)] (16, 9))).map
        (fun i => ((i + 1) * 9, (i + 1) * 16)) ∧
    max_mult [(1080, 1920)] (16, 9) = 213 :=
  ⟨(c1_valid_shapes_swapped [(1080, 1920)] (16, 9) (by decide) (by decide)
      (by decide)).1, by decide⟩

/-! Claim C7. -/

/-- Claim C7: for every positive ratio (rw, rh) and every shape collection,
every shape produced by compute_all_valid_shapes is an exact integer
multiple (k·rh, k·rw) with k ≥ 1, and the sequence is strictly increasing
in both dimensions (increasing k order). -/
theorem c7_multiples_increasing (shapes : List (ℕ × ℕ)) (rat : ℕ × ℕ)
    (hrw : 0 < rat.1) (hrh : 0 < rat.2) :
    (∀ s ∈ compute_all_valid_shapes shapes rat,
      ∃ k, 1 ≤ k ∧ s = (k * rat.2, k * rat.1)) ∧
    (compute_all_valid_shapes shapes rat).Pairwise
      (fun a b => a.1 < b.1 ∧ a.2 < b.2) := by
  rw [compute_eq]
  constructor
  · intro s hs
    rw [List.mem_map] at hs
    obtain ⟨i, _, heq⟩ := hs
    exact ⟨i + 1, by omega, heq.symm⟩
  · refine (List.pairwise_lt_range _).map _ ?_
    intro a b hab
    exact ⟨(Nat.mul_lt_mul_right hrh).mpr (by omega),
      (Nat.mul_lt_mul_right hrw).mpr (by omega)⟩

/-- Claim C7, witness: instantiated at shapes [(32, 9)] with ratio (16, 9),
whose valid shapes are [(9, 16), (18, 32)]. -/
theorem c7_multiples_increasing_witness :
    (∀ s ∈ compute_all_valid_shapes [(32, 9)] (16, 9),
      ∃ k, 1 ≤ k ∧ s = (k * 9, k * 16)) ∧
    (compute_all_valid_shapes [(32, 9)] (16, 9)).Pairwise
      (fun a b => a.1 < b.1 ∧ a.2 < b.2) :=
  c7_multiples_increasing [(32, 9)] (16, 9) (by decide) (by decide)

/-! Concrete evaluations of the rational-valued predicates, used to
discharge hypotheses of witnesses (rational division does not reduce in the
kernel, so these are proved by simp and norm_num instead of decide). -/

theorem resizable_1920_1080 :
    is_resizable 1920 1080 (17778 / 100000) (16, 9) = true := by
  simp only [is_resizable, decide_eq_true_eq]
  rw [abs_le]
  constructor <;> norm_num

theorem resizable_1900_1080 :
    is_resizable 1900 1080 (2 / 10) (16, 9) = true := by
  simp only [is_resizable, decide_eq_true_eq]
  rw [abs_le]
  constructor <;> norm_num

theorem classify_1900_resizable :
    classify 1900 1080 (16, 9) (2 / 10) = Outcome.Resizable := by
  have hbad : is_good_rat 1900 1080 (16, 9) = false := by decide
  rw [classify]
  rw [hbad, resizable_1900_1080]
  rfl

/-! Claim C3. -/

/-- Claim C3: classification is a pure total function of
(width, height, ratio, margin): for every width and height with height > 0
(and a positive rh ratio component, which Python needs to avoid a
ZeroDivisionError), exactly one of the three outcomes is produced, and the
outcome is Conforming if and only if the width equals the floor (truncating
division) of height·rw/rh. -/
theorem c3_classify_total (width height : ℕ) (rat : ℕ × ℕ) (margin : ℚ)
    (_hh : 0 < height) (_hrh : 0 < rat.2) :
    (∃! o : Outcome, classify width height rat margin = o) ∧
    (classify width height rat margin = Outcome.Conforming ↔
      width = height * rat.1 / rat.2) := by
  constructor
  · exact ⟨classify width height rat margin, rfl, fun y hy => hy.symm⟩
  · cases hg : is_good_rat width height rat
    · have hneq : ¬width = height * rat.1 / rat.2 := by
        simpa [is_good_rat] using hg
      rw [classify, hg]
      constructor
      · intro hcon
        by_cases hr : is_resizable width height margin rat = true
        · rw [if_neg (by simp), if_pos hr] at hcon
          exact absurd hcon (by decide)
        · rw [if_neg (by simp), if_neg hr] at hcon
          exact absurd hcon (by decide)
      · intro hw
        exact absurd hw hneq
    · have heq : width = height * rat.1 / rat.2 := by
        simpa [is_good_rat] using hg
      rw [classify, hg]
      exact ⟨fun _ => heq, fun _ => rfl⟩

/-- Claim C3, witness: instantiated at the 1920×1080 image with ratio
(16, 9) and the default margin: the classification is Conforming and
1920 = 1080·16/9. -/
theorem c3_classify_total_witness :
    (∃! o : Outcome, classify 1920 1080 (16, 9) (17778 / 100000) = o) ∧
    (classify 1920 1080 (16, 9) (17778 / 100000) = Outcome.Conforming ↔
      1920 = 1080 * 16 / 9) :=
  c3_classify_total 1920 1080 (16, 9) (17778 / 100000) (by decide) (by decide)

/-! Claim C6. -/

/-- Claim C6: an image satisfying both the conforming predicate and the
resizable predicate is classified Conforming: conformance takes precedence,
main dispatches neither a resize nor a crop, and the file shape is left
untouched. -/
theorem c6_conforming_precedence (width height : ℕ) (vs : List (ℕ × ℕ))
    (rat : ℕ × ℕ) (margin : ℚ)
    (hconf : is_good_rat width height rat = true)
    (_hres : is_resizable width height margin rat = true) :
    classify width height rat margin = Outcome.Conforming ∧
    process_image (height, width) vs rat margin = Action.skip ∧
    apply_action (height, width)
      (process_image (height, width) vs rat margin) = (height, width) := by
  have h1 : classify width height rat margin = Outcome.Conforming := by
    rw [classify, hconf]
    rfl
  have h2 : process_image (height, width) vs rat margin = Action.skip := by
    rw [process_image]
    have : is_good_rat (height, width).2 (height, width).1 rat = true := hconf
    rw [this]
    rfl
  exact ⟨h1, h2, by rw [h2]; rfl⟩

/-- Claim C6, witness: with ratio (16, 9) and the default margin, the
1920×1080 image satisfies both predicates, is classified Conforming, and
its file is not written. -/
theorem c6_conforming_precedence_witness :
    classify 1920 1080 (16, 9) (17778 / 100000) = Outcome.Conforming ∧
    process_image (1080, 1920) [(9, 16)] (16, 9) (17778 / 100000) =
      Action.skip ∧
    apply_action (1080, 1920)
      (process_image (1080, 1920) [(9, 16)] (16, 9) (17778 / 100000)) =
      (1080, 1920) :=
  c6_conforming_precedence 1920 1080 [(9, 16)] (16, 9) (17778 / 100000)
    (by decide) resizable_1920_1080

/-! Claim C4. -/

/-- Claim C4: for every image classified Resizable and every non-empty
valid-shape sequence, get_closest_shape returns an element of the sequence
minimising the squared Euclidean distance from the point (height, width),
and among the minimisers it returns the first one in sequence order. -/
theorem c4_nearest_shape (width height : ℕ) (vs : List (ℕ × ℕ)) (rat : ℕ × ℕ)
    (margin : ℚ)
    (hres : classify width height rat margin = Outcome.Resizable)
    (hne : vs ≠ []) :
    get_closest_shape width height vs rat ∈ vs ∧
    (∀ s ∈ vs,
      sq_dist (get_closest_shape width height vs rat) (height, width) ≤
        sq_dist s (height, width)) ∧
    ∃ i, i < vs.length ∧
      vs.getD i (0, 0) = get_closest_shape width height vs rat ∧
      ∀ j, j < i →
        sq_dist (get_closest_shape width height vs rat) (height, width) <
          sq_dist (vs.getD j (0, 0)) (height, width) := by
  have hbad : is_good_rat width height rat = false := by
    cases hb : is_good_rat width height rat
    · rfl
    · exfalso
      rw [classify, hb, if_pos rfl] at hres
      exact absurd hres (by decide)
  exact ⟨gcs_mem width height vs rat hbad hne,
    gcs_min width height vs rat hbad hne,
    gcs_first width height vs rat hbad hne⟩

/-- Claim C4, witness: the 1900×1080 image with ratio (16, 9) and margin
0.2 is Resizable, and over the sequence [(9, 16), (1080, 1920)] the stated
nearest-shape properties hold. -/
theorem c4_nearest_shape_witness :
    get_closest_shape 1900 1080 [(9, 16), (1080, 1920)] (16, 9) ∈
      ([(9, 16), (1080, 1920)] : List (ℕ × ℕ)) ∧
    (∀ s ∈ ([(9, 16), (1080, 1920)] : List (ℕ × ℕ)),
      sq_dist (get_closest_shape 1900 1080 [(9, 16), (1080, 1920)] (16, 9))
          (1080, 1900) ≤
        sq_dist s (1080, 1900)) ∧
    ∃ i, i < ([(9, 16), (1080, 1920)] : List (ℕ × ℕ)).length ∧
      ([(9, 16), (1080, 1920)] : List (ℕ × ℕ)).getD i (0, 0) =
        get_closest_shape 1900 1080 [(9, 16), (1080, 1920)] (16, 9) ∧
      ∀ j, j < i →
        sq_dist (get_closest_shape 1900 1080 [(9, 16), (1080, 1920)] (16, 9))
            (1080, 1900) <
          sq_dist (([(9, 16), (1080, 1920)] : List (ℕ × ℕ)).getD j (0, 0))
            (1080, 1900) :=
  c4_nearest_shape 1900 1080 [(9, 16), (1080, 1920)] (16, 9) (2 / 10)
    classify_1900_resizable (by decide)

/-! Claim C5. -/

/-- Claim C5, counterexample: get_closest_shape CAN return a shape outside
the provided valid-shape sequence.  The 1×1 image is conforming for ratio
(16, 9) (1 = int(1·16/9)), so get_closest_shape returns the image shape
(1, 1) itself, which is not in the sequence [(9, 16)]. -/
theorem c5_counterexample :
    get_closest_shape 1 1 [(9, 16)] (16, 9) = (1, 1) ∧
    (1, 1) ∉ ([(9, 16)] : List (ℕ × ℕ)) := by
  exact ⟨by decide, by decide⟩

/-- Claim C5, amended: get_closest_shape never returns a shape outside the
provided sequence UNLESS the input is conforming, in which case it returns
the image shape itself; for every non-conforming input and non-empty
sequence the result is in the sequence, and for an input whose
(height, width) is an element of the sequence it returns exactly that
shape. -/
theorem c5_membership_amended (width height : ℕ) (vs : List (ℕ × ℕ))
    (rat : ℕ × ℕ) :
    (is_good_rat width height rat = false → vs ≠ [] →
      get_closest_shape width height vs rat ∈ vs) ∧
    ((height, width) ∈ vs →
      get_closest_shape width height vs rat = (height, width)) := by
  constructor
  · intro hbad hne
    exact gcs_mem width height vs rat hbad hne
  · intro hmem
    cases hb : is_good_rat width height rat
    · have hne : vs ≠ [] := by
        intro h
        rw [h] at hmem
        exact absurd hmem (List.not_mem_nil _)
      have hmin := gcs_min width height vs rat hb hne (height, width) hmem
      have hzero : sq_dist (height, width) (height, width) = 0 := by
        simp [sq_dist]
      rw [hzero] at hmin
      have hnonneg :
          0 ≤ sq_dist (get_closest_shape width height vs rat) (height, width) := by
        rw [sq_dist]
        positivity
      have heq0 :
          sq_dist (get_closest_shape width height vs rat) (height, width) = 0 :=
        le_antisymm hmin hnonneg
      rw [sq_dist] at heq0
      have hsq1 := sq_nonneg
        (((get_closest_shape width height vs rat).1 : ℤ) - (height : ℤ))
      have hsq2 := sq_nonneg
        (((get_closest_shape width height vs rat).2 : ℤ) - (width : ℤ))
      have h1 : ((get_closest_shape width height vs rat).1 : ℤ) = height := by
        nlinarith
      have h2 : ((get_closest_shape width height vs rat).2 : ℤ) = width := by
        nlinarith
      have h1n : (get_closest_shape width height vs rat).1 = height := by
        exact_mod_cast h1
      have h2n : (get_closest_shape width height vs rat).2 = width := by
        exact_mod_cast h2
      exact Prod.ext h1n h2n
    · rw [get_closest_shape, hb]
      rfl

/-- Claim C5, witness of the amended theorem: for the non-conforming
1900×1080 image the result lies in the sequence, and for the conforming
1920×1080 image whose shape (1080, 1920) is itself in the sequence, that
exact shape is returned. -/
theorem c5_membership_amended_witness :
    get_closest_shape 1900 1080 [(9, 16), (1080, 1920)] (16, 9) ∈
      ([(9, 16), (1080, 1920)] : List (ℕ × ℕ)) ∧
    get_closest_shape 1920 1080 [(9, 16), (1080, 1920)] (16, 9) =
      (1080, 1920) :=
  ⟨(c5_membership_amended 1900 1080 [(9, 16), (1080, 1920)] (16, 9)).1
      (by decide) (by decide),
   (c5_membership_amended 1920 1080 [(9, 16), (1080, 1920)] (16, 9)).2
      (by decide)⟩

/-- Claim C2, counterexample: over the enumerator output
[(9, 16), (18, 32)] for shapes [(32, 9)] and ratio (16, 9), the image
(1080, 1920) contains every valid shape, yet the function returns (9, 16),
which is not maximal among the contained shapes: (18, 32) is also contained
and strictly bigger. -/
theorem c2_counterexample :
    compute_all_valid_shapes [(32, 9)] (16, 9) = [(9, 16), (18, 32)] ∧
    get_biggest_shape_contained_in_image (1080, 1920) [(9, 16), (18, 32)] =
      (9, 16) ∧
    (18, 32) ∈ ([(9, 16), (18, 32)] : List (ℕ × ℕ)) ∧
    18 ≤ 1080 ∧ 32 ≤ 1920 ∧ ¬(18 ≤ 9) :=
  ⟨by rw [compute_eq]; decide, by decide, by decide, by decide, by decide,
    by decide⟩

/-- Claim C2, witness of the amended theorem: for the image (1080, 1920)
and the sequence [(9, 16), (18, 32), (2000, 3000)], whose last shape
exceeds the image, the returned shape is contained and maximal. -/
theorem c2_largest_contained_amended_witness :
    get_biggest_shape_contained_in_image (1080, 1920)
      [(9, 16), (18, 32), (2000, 3000)] ∈
      ([(9, 16), (18, 32), (2000, 3000)] : List (ℕ × ℕ)) ∧
    (get_biggest_shape_contained_in_image (1080, 1920)
      [(9, 16), (18, 32), (2000, 3000)]).1 ≤ 1080 ∧
    (get_biggest_shape_contained_in_image (1080, 1920)
      [(9, 16), (18, 32), (2000, 3000)]).2 ≤ 1920 ∧
    ∀ v ∈ ([(9, 16), (18, 32), (2000, 3000)] : List (ℕ × ℕ)),
      v.1 ≤ 1080 → v.2 ≤ 1920 →
      v.1 ≤ (get_biggest_shape_contained_in_image (1080, 1920)
        [(9, 16), (18, 32), (2000, 3000)]).1 ∧
      v.2 ≤ (get_biggest_shape_contained_in_image (1080, 1920)
        [(9, 16), (18, 32), (2000, 3000)]).2 :=
  c2_largest_contained_amended (1080, 1920) [(9, 16), (18, 32), (2000, 3000)]
    (by decide) (by decide) (by decide) (by decide)

/-! Claim C10. -/

/-- Claim C10: when every shape of the non-empty valid-shape sequence is
contained in the image, the break never fires and
get_biggest_shape_contained_in_image returns the element at index
length - 2 — the second-to-last shape — and when the sequence has exactly
one shape the index wraps around to that same last element. -/
theorem c10_second_to_last (shape : ℕ × ℕ) (vs : List (ℕ × ℕ))
    (hne : vs ≠ [])
    (hall : ∀ v ∈ vs, v.1 ≤ shape.1 ∧ v.2 ≤ shape.2) :
    get_biggest_shape_contained_in_image shape vs =
      vs.getD (vs.length - 2) (0, 0) ∧
    (vs.length = 1 →
      get_biggest_shape_contained_in_image shape vs = vs.getD 0 (0, 0)) := by
  have hallB : ∀ v ∈ vs,
      (fun v : ℕ × ℕ => shape.1 < v.1 || shape.2 < v.2) v = false := by
    intro v hv
    simp only [Bool.or_eq_false_iff, decide_eq_false_iff_not, not_lt]
    exact hall v hv
  have hloop := loop_index_nohit
    (fun v : ℕ × ℕ => shape.1 < v.1 || shape.2 < v.2) vs hallB hne
  have hpos : 0 < vs.length := List.length_pos.mpr hne
  rcases Nat.lt_or_ge vs.length 2 with hlen | hlen
  · have hlen1 : vs.length = 1 := by omega
    have hzero :
        loop_index (fun v : ℕ × ℕ => shape.1 < v.1 || shape.2 < v.2) vs = 0 := by
      rw [hloop, hlen1]
    constructor
    · unfold get_biggest_shape_contained_in_image pyGet
      rw [hzero, if_pos (by omega)]
      congr 1
      omega
    · intro _
      unfold get_biggest_shape_contained_in_image pyGet
      rw [hzero, if_pos (by omega)]
      congr 1
      omega
  · have h1le :
        1 ≤ loop_index (fun v : ℕ × ℕ => shape.1 < v.1 || shape.2 < v.2) vs := by
      omega
    constructor
    · rw [biggest_eq_getD shape vs h1le, hloop]
      congr 1
    · intro h1
      omega

/-- Claim C10, witness: for the image (1080, 1920) both shapes of
[(9, 16), (18, 32)] are contained, and the function returns the element at
index 0 = length - 2, i.e. (9, 16), not the largest shape. -/
theorem c10_second_to_last_witness :
    get_biggest_shape_contained_in_image (1080, 1920) [(9, 16), (18, 32)] =
      ([(9, 16), (18, 32)] : List (ℕ × ℕ)).getD
        (([(9, 16), (18, 32)] : List (ℕ × ℕ)).length - 2) (0, 0) ∧
    (([(9, 16), (18, 32)] : List (ℕ × ℕ)).length = 1 →
      get_biggest_shape_contained_in_image (1080, 1920) [(9, 16), (18, 32)] =
        ([(9, 16), (18, 32)] : List (ℕ × ℕ)).getD 0 (0, 0)) :=
  c10_second_to_last (1080, 1920) [(9, 16), (18, 32)] (by decide) (by decide)

/-! Claim C8. -/

/-- Helper for Claim C8: the slice performed by crop_image on one axis of
length o, aimed at a new length n ≤ o, has length exactly n. -/
theorem crop_axis_len (o n : ℕ) (hle : n ≤ o) :
    pySliceLen (o : ℤ) (((o : ℤ) - n).fdiv 2)
      ((o : ℤ) - (((o : ℤ) - n) - ((o : ℤ) - n).fdiv 2)) = n := by
  have hf : ((o : ℤ) - n).fdiv 2 = ((o : ℤ) - n) / 2 :=
    Int.fdiv_eq_ediv _ (by omega)
  have hle2 : (n : ℤ) ≤ (o : ℤ) := by exact_mod_cast hle
  rw [hf]
  unfold pySliceLen pySliceIdx
  rw [if_neg (by omega), if_neg (by omega)]
  omega

/-- Claim C8: for every old shape and selected new shape with new ≤ old
elementwise, the crop computes margins with
up_left + down_right = old - new elementwise,
up_left = floor(margin / 2) elementwise (the extra pixel of an odd margin
goes to the trailing edge), and the cropped image dimensions equal the new
shape. -/
theorem c8_crop_split (old new : ℕ × ℕ)
    (h1 : new.1 ≤ old.1) (h2 : new.2 ≤ old.2) :
    (crop_up_left old new).1 + (crop_down_right old new).1 =
      (old.1 : ℤ) - (new.1 : ℤ) ∧
    (crop_up_left old new).2 + (crop_down_right old new).2 =
      (old.2 : ℤ) - (new.2 : ℤ) ∧
    (crop_up_left old new).1 = ((old.1 : ℤ) - (new.1 : ℤ)).fdiv 2 ∧
    (crop_up_left old new).2 = ((old.2 : ℤ) - (new.2 : ℤ)).fdiv 2 ∧
    cropped_shape old new = ((new.1 : ℤ), (new.2 : ℤ)) := by
  refine ⟨?_, ?_, rfl, rfl, ?_⟩
  · simp only [crop_up_left, crop_down_right, crop_margin]
    ring
  · simp only [crop_up_left, crop_down_right, crop_margin]
    ring
  · refine Prod.ext ?_ ?_
    · exact crop_axis_len old.1 new.1 h1
    · exact crop_axis_len old.2 new.2 h2

/-- Claim C8, witness: cropping from the old shape (1000, 1001) to the new
shape (900, 905): the margins 100 and 96 split into 50 + 50 and 48 + 48,
and the cropped dimensions equal (900, 905). -/
theorem c8_crop_split_witness :
    (crop_up_left (1000, 1001) (900, 905)).1 +
      (crop_down_right (1000, 1001) (900, 905)).1 = (1000 : ℤ) - (900 : ℤ) ∧
    (crop_up_left (1000, 1001) (900, 905)).2 +
      (crop_down_right (1000, 1001) (900, 905)).2 = (1001 : ℤ) - (905 : ℤ) ∧
    (crop_up_left (1000, 1001) (900, 905)).1 =
      ((1000 : ℤ) - (900 : ℤ)).fdiv 2 ∧
    (crop_up_left (1000, 1001) (900, 905)).2 =
      ((1001 : ℤ) - (905 : ℤ)).fdiv 2 ∧
    cropped_shape (1000, 1001) (900, 905) = ((900 : ℤ), (905 : ℤ)) :=
  c8_crop_split (1000, 1001) (900, 905) (by decide) (by decide)

/-! Claim C9. -/

/-- Claim C9: on a directory whose images are all conforming, one run of
main dispatches only skips (no file writes), the directory shapes are
unchanged, and a second run again dispatches only skips. -/
theorem c9_idempotent (shapes : List (ℕ × ℕ)) (rat : ℕ × ℕ) (margin : ℚ)
    (hconf : ∀ s ∈ shapes, is_good_rat s.2 s.1 rat = true) :
    (∀ a ∈ main_actions shapes rat margin, a = Action.skip) ∧
    shapes_after shapes rat margin = shapes ∧
    (∀ a ∈ main_actions (shapes_after shapes rat margin) rat margin,
      a = Action.skip) := by
  have hskip : ∀ s ∈ shapes, ∀ vs,
      process_image s vs rat margin = Action.skip := by
    intro s hs vs
    rw [process_image, hconf s hs]
    rfl
  have hmain : ∀ a ∈ main_actions shapes rat margin, a = Action.skip := by
    intro a ha
    simp only [main_actions, List.mem_map] at ha
    obtain ⟨s, hs, heq⟩ := ha
    rw [← heq]
    exact hskip s hs _
  have hafter : shapes_after shapes rat margin = shapes := by
    simp only [shapes_after]
    have hid : ∀ s ∈ shapes,
        apply_action s
          (process_image s (compute_all_valid_shapes shapes rat) rat margin) =
          id s := by
      intro s hs
      rw [hskip s hs]
      rfl
    rw [List.map_congr_left hid, List.map_id]
  exact ⟨hmain, hafter, by rw [hafter]; exact hmain⟩

/-- Claim C9, witness: the one-image directory [(1080, 1920)] is fully
conforming for ratio (16, 9), so both runs perform no writes and the
shapes are unchanged. -/
theorem c9_idempotent_witness :
    (∀ a ∈ main_actions [(1080, 1920)] (16, 9) 0, a = Action.skip) ∧
    shapes_after [(1080, 1920)] (16, 9) 0 = [(1080, 1920)] ∧
    (∀ a ∈ main_actions (shapes_after [(1080, 1920)] (16, 9) 0) (16, 9) 0,
      a = Action.skip) :=
  c9_idempotent [(1080, 1920)] (16, 9) 0 (by decide)

end WallpaperResize
